import Mathlib

/-
Verification of the date-classification, streak-statistics and calendar-grid logic
of the obsidian-habit-tracker plugin.

The embedding models the code of the plugin:
* `calculateStatistics` (src/stats.ts): strips a trailing ".md", tries the seven
  hard-coded moment.js formats in order with strict parsing, normalizes periodic
  notes to their period start, sorts the dates descending, filters them with the
  period-start heuristic (drop 1st-of-month, Jan 1 and Mondays) and counts the
  backward streak from today or yesterday; `timeSinceStr`, `getDaysSuffix`,
  `getHoursSuffix` model the relative-time formatting.
* `getFileDataList` / `getFileData` (src/view.ts getFileData): classification of a
  file name against the user-configured format list, first strict match wins, with
  the substring heuristic for the periodicity kind.
* `getDailyNotes` (main.ts): folder- and format-based filtering of the vault files.
* `generateCalendar` (src/calendar.ts): leading null padding up to the Monday-based
  weekday of the first of the month followed by one cell per day of the month.

Calendar arithmetic: a date is `CDate` (year, month, day); `toDays` is the count of
days since 1970-01-01 in the proleptic Gregorian calendar (the value moment.js
derives through `Date.UTC`), written with the standard era/year-of-era formula.
The parsing of `gggg-[W]ww` week tokens by moment is locale dependent, so the week
machinery (`firstWeekOffset`, `weeksInYear`, `weekTarget`) carries the locale week
parameters `dow`/`doy` exactly as moment does; every theorem below holds for all
locale parameters.  moment never throws on a malformed format: a parse either
yields a valid date or fails, modelled by `Option`.  JavaScript string helpers
(split by newline, trim, startsWith, removal of a first or trailing ".md") are
modelled structurally on character lists.  JavaScript truncating division and
remainder are `Int.tdiv` / `Int.tmod`; `%` on nonnegative operands and
`Math.floor` division are `Int.emod` / `Int.ediv`.
-/

structure CDate where
  y : Int
  m : Int
  d : Int
deriving DecidableEq, Repr

def isLeap (y : Int) : Bool :=
  (y.emod 4 == 0 && y.emod 100 != 0) || y.emod 400 == 0

def daysInMonth (y m : Int) : Int :=
  if m = 2 then (if isLeap y then 29 else 28)
  else if m = 4 ∨ m = 6 ∨ m = 9 ∨ m = 11 then 30
  else 31

def daysInYear (y : Int) : Int := if isLeap y then 366 else 365

def monthDoy (m : Int) : Int :=
  if m = 1 then 306 else if m = 2 then 337 else if m = 3 then 0
  else if m = 4 then 31 else if m = 5 then 61 else if m = 6 then 92
  else if m = 7 then 122 else if m = 8 then 153 else if m = 9 then 184
  else if m = 10 then 214 else if m = 11 then 245 else 275

def yearDays (z : Int) : Int :=
  let era := z / 400
  let yoe := z - era * 400
  era * 146097 + yoe * 365 + yoe / 4 - yoe / 100

def toDays (c : CDate) : Int :=
  yearDays (if c.m ≤ 2 then c.y - 1 else c.y) + monthDoy c.m + c.d - 1 - 719468

def Valid (c : CDate) : Prop :=
  1 ≤ c.m ∧ c.m ≤ 12 ∧ 1 ≤ c.d ∧ c.d ≤ daysInMonth c.y c.m

instance : DecidablePred Valid := fun c => by unfold Valid; infer_instance

def prevDay : CDate → CDate
  | ⟨y, m, d⟩ =>
    if 1 < d then ⟨y, m, d - 1⟩
    else if 1 < m then ⟨y, m - 1, daysInMonth y (m - 1)⟩
    else ⟨y - 1, 12, 31⟩

def civilSubDays (c : CDate) : Nat → CDate
  | 0 => c
  | k + 1 => civilSubDays (prevDay c) k

def dayOfWeekSun (c : CDate) : Int := (toDays c + 4) % 7

def startOfIsoWeek (c : CDate) : CDate := civilSubDays c ((toDays c + 3) % 7).toNat

def startOfMonth (c : CDate) : CDate := ⟨c.y, c.m, 1⟩

def startOfQuarter (c : CDate) : CDate := ⟨c.y, 3 * ((c.m - 1) / 3) + 1, 1⟩

def startOfYear (c : CDate) : CDate := ⟨c.y, 1, 1⟩

def nextDay : CDate → CDate
  | ⟨y, m, d⟩ =>
    if d < daysInMonth y m then ⟨y, m, d + 1⟩
    else if m < 12 then ⟨y, m + 1, 1⟩
    else ⟨y + 1, 1, 1⟩

def civilAddDays (c : CDate) : Nat → CDate
  | 0 => c
  | k + 1 => civilAddDays (nextDay c) k

def civilOfYearDay (y n : Int) : CDate := civilAddDays ⟨y, 1, 1⟩ (n - 1).toNat

def firstWeekOffset (y dow doy : Int) : Int :=
  let fwd := 7 + dow - doy
  let fwdlw := (7 + dayOfWeekSun ⟨y, 1, fwd⟩ - dow) % 7
  fwd - 1 - fwdlw

def weeksInYear (y dow doy : Int) : Int :=
  (daysInYear y - firstWeekOffset y dow doy + firstWeekOffset (y + 1) dow doy) / 7

def yearDayAdjust (y n : Int) : Int × Int :=
  if n ≤ 0 then (y - 1, n + daysInYear (y - 1))
  else if n > daysInYear y then (y + 1, n - daysInYear y)
  else (y, n)

def dval (ch : Char) : Int := (ch.toNat : Int) - 48

def d2 (a b : Char) : Int := 10 * dval a + dval b

def d4 (a b e f : Char) : Int := 1000 * dval a + 100 * dval b + 10 * dval e + dval f

def mkValid (y m d : Int) : Option CDate :=
  if 1 ≤ m ∧ m ≤ 12 ∧ 1 ≤ d ∧ d ≤ daysInMonth y m then some ⟨y, m, d⟩ else none

def parseDDMMYY : List Char → Option CDate
  | [a, b, '.', e, f, '.', g, i] =>
    if a.isDigit && b.isDigit && e.isDigit && f.isDigit && g.isDigit && i.isDigit then
      mkValid (d2 g i + if d2 g i > 68 then 1900 else 2000) (d2 e f) (d2 a b)
    else none
  | _ => none

def parseDDMMYYYY : List Char → Option CDate
  | [a, b, '.', e, f, '.', g, i, j, k] =>
    if a.isDigit && b.isDigit && e.isDigit && f.isDigit && g.isDigit && i.isDigit &&
        j.isDigit && k.isDigit then
      mkValid (d4 g i j k) (d2 e f) (d2 a b)
    else none
  | _ => none

def parseYYYYMMDD : List Char → Option CDate
  | [a, b, e, f, '-', g, i, '-', j, k] =>
    if a.isDigit && b.isDigit && e.isDigit && f.isDigit && g.isDigit && i.isDigit &&
        j.isDigit && k.isDigit then
      mkValid (d4 a b e f) (d2 g i) (d2 j k)
    else none
  | _ => none

def weekTarget (dow doy gy w : Int) : Int × Int :=
  yearDayAdjust gy (1 + 7 * (w - 1) + firstWeekOffset gy dow doy)

def parseGGGGWW (dow doy : Int) : List Char → Option CDate
  | [a, b, e, f, '-', 'W', g, i] =>
    if a.isDigit && b.isDigit && e.isDigit && f.isDigit && g.isDigit && i.isDigit then
      if 1 ≤ d2 g i ∧ d2 g i ≤ weeksInYear (d4 a b e f) dow doy then
        if 1 ≤ (weekTarget dow doy (d4 a b e f) (d2 g i)).2 ∧
            (weekTarget dow doy (d4 a b e f) (d2 g i)).2 ≤
              daysInYear (weekTarget dow doy (d4 a b e f) (d2 g i)).1 then
          some (civilOfYearDay (weekTarget dow doy (d4 a b e f) (d2 g i)).1
            (weekTarget dow doy (d4 a b e f) (d2 g i)).2)
        else none
      else none
    else none
  | _ => none

def parseYYYYMM : List Char → Option CDate
  | [a, b, e, f, '-', g, i] =>
    if a.isDigit && b.isDigit && e.isDigit && f.isDigit && g.isDigit && i.isDigit then
      if 1 ≤ d2 g i ∧ d2 g i ≤ 12 then some ⟨d4 a b e f, d2 g i, 1⟩ else none
    else none
  | _ => none

def parseYYYYQ : List Char → Option CDate
  | [a, b, e, f, '-', 'Q', g] =>
    if a.isDigit && b.isDigit && e.isDigit && f.isDigit && g.isDigit then
      if 1 ≤ dval g ∧ dval g ≤ 4 then some ⟨d4 a b e f, (dval g - 1) * 3 + 1, 1⟩ else none
    else none
  | _ => none

def parseYYYY : List Char → Option CDate
  | [a, b, e, f] =>
    if a.isDigit && b.isDigit && e.isDigit && f.isDigit then
      some ⟨d4 a b e f, 1, 1⟩
    else none
  | _ => none

def stripMdEnd (s : String) : String :=
  match s.data.reverse with
  | 'd' :: 'm' :: '.' :: rest => String.mk rest.reverse
  | _ => s

inductive PKind where
  | day
  | week
  | month
  | quarter
  | year
deriving DecidableEq, Repr

def classify7 (dow doy : Int) (filename : String) : Option (CDate × PKind) :=
  let s := (stripMdEnd filename).data
  match parseDDMMYY s with
  | some c => some (c, PKind.day)
  | none =>
  match parseDDMMYYYY s with
  | some c => some (c, PKind.day)
  | none =>
  match parseYYYYMMDD s with
  | some c => some (c, PKind.day)
  | none =>
  match parseGGGGWW dow doy s with
  | some c => some (startOfIsoWeek c, PKind.week)
  | none =>
  match parseYYYYMM s with
  | some c => some (startOfMonth c, PKind.month)
  | none =>
  match parseYYYYQ s with
  | some c => some (startOfQuarter c, PKind.quarter)
  | none =>
  match parseYYYY s with
  | some c => some (startOfYear c, PKind.year)
  | none => none

def statsParse (dow doy : Int) (filename : String) : Option CDate :=
  (classify7 dow doy filename).map Prod.fst

def dayFilter (c : CDate) : Bool :=
  let isYearStart := c.m == 1 && c.d == 1
  let isMonthStart := c.d == 1
  let isWeekStart := dayOfWeekSun c == 1
  !isYearStart && !isMonthStart && !isWeekStart

def insertD (c : CDate) : List CDate → List CDate
  | [] => [c]
  | x :: xs => if toDays x ≤ toDays c then c :: x :: xs else x :: insertD c xs

def sortDesc : List CDate → List CDate
  | [] => []
  | x :: xs => insertD x (sortDesc xs)

def walkStreak : List CDate → Int → Nat
  | [], _ => 0
  | x :: xs, chk => if toDays x = chk then 1 + walkStreak xs (chk - 1) else 0

def streakTop (today : Int) : List CDate → Nat
  | [] => 0
  | x :: xs =>
    if toDays x = today ∨ toDays x = today - 1 then 1 + walkStreak xs (toDays x - 1) else 0

def getDaysSuffix (days : Int) : String :=
  let lastTwo := Int.tmod days 100
  let lastOne := Int.tmod days 10
  if 11 ≤ lastTwo ∧ lastTwo ≤ 19 then "ей"
  else if lastOne = 1 then "ь"
  else if lastOne = 2 ∨ lastOne = 3 ∨ lastOne = 4 then "я"
  else "ей"

def getHoursSuffix (hours : Int) : String :=
  let lastTwo := Int.tmod hours 100
  let lastOne := Int.tmod hours 10
  if 11 ≤ lastTwo ∧ lastTwo ≤ 19 then "ов"
  else if lastOne = 1 then ""
  else if lastOne = 2 ∨ lastOne = 3 ∨ lastOne = 4 then "а"
  else "ов"

def timeSinceStr (nowMin : Int) (lastNote : CDate) : String :=
  let lastMin := toDays lastNote * 1440
  let diffMinutes := nowMin - lastMin
  let diffDays := Int.tdiv (nowMin - lastMin) 1440
  let diffHours := Int.tdiv (nowMin - lastMin) 60
  if diffDays = 0 then
    if diffHours = 0 then s!"{diffMinutes} минут назад"
    else
      let suf := getHoursSuffix diffHours
      s!"{diffHours} час{suf} назад"
  else if diffDays = 1 then "вчера"
  else
    let suf := getDaysSuffix diffDays
    s!"{diffDays} дн{suf} назад"

def pad2 (n : Int) : String := if 0 ≤ n ∧ n < 10 then "0" ++ toString n else toString n

def monthAbbr (m : Int) : String :=
  if m = 1 then "Jan" else if m = 2 then "Feb" else if m = 3 then "Mar"
  else if m = 4 then "Apr" else if m = 5 then "May" else if m = 6 then "Jun"
  else if m = 7 then "Jul" else if m = 8 then "Aug" else if m = 9 then "Sep"
  else if m = 10 then "Oct" else if m = 11 then "Nov" else "Dec"

def pad4 (n : Int) : String :=
  if 0 ≤ n ∧ n < 10 then "000" ++ toString n
  else if 10 ≤ n ∧ n < 100 then "00" ++ toString n
  else if 100 ≤ n ∧ n < 1000 then "0" ++ toString n
  else toString n

def formatDDMMMYYYY (c : CDate) : String :=
  pad2 c.d ++ " " ++ monthAbbr c.m ++ " " ++ pad4 c.y

structure HabitStats where
  lastNoteDate : String
  currentStreak : Nat
  timeSinceLastNote : String
deriving DecidableEq, Repr

def emptyStats : HabitStats := ⟨"", 0, "Нет записей"⟩

def statsOfSorted (today nowMin : Int) : List CDate → HabitStats
  | [] => emptyStats
  | lastNote :: rest =>
    let lastNoteDate := formatDDMMMYYYY lastNote
    let dailyDates := (lastNote :: rest).filter dayFilter
    let currentStreak := streakTop today dailyDates
    ⟨lastNoteDate, currentStreak, timeSinceStr nowMin lastNote⟩

def calculateStatistics (dow doy : Int) (notes : List String) (today nowMin : Int) :
    HabitStats :=
  if notes.isEmpty then emptyStats
  else statsOfSorted today nowMin (sortDesc (notes.filterMap (statsParse dow doy)))

def dayDates (dow doy : Int) (notes : List String) : List CDate :=
  notes.filterMap (fun n =>
    match classify7 dow doy n with
    | some (c, PKind.day) => some c
    | _ => none)

def splitOnNl : List Char → List (List Char)
  | [] => [[]]
  | '\n' :: rest => [] :: splitOnNl rest
  | ch :: rest =>
    match splitOnNl rest with
    | [] => [[ch]]
    | w :: ws => (ch :: w) :: ws

def isSpaceChar (ch : Char) : Bool :=
  ch == ' ' || ch == '\t' || ch == '\r' || ch == '\n'

def trimChars (s : List Char) : List Char :=
  ((s.dropWhile isSpaceChar).reverse.dropWhile isSpaceChar).reverse

def splitTrim (s : String) : List String :=
  ((splitOnNl s.data).map (fun w => String.mk (trimChars w))).filter
    (fun f => f.length > 0)

def containsChars (s : List Char) (ch : Char) : Bool :=
  s.any (fun x => x == ch)

def startsWithChars : List Char → List Char → Bool
  | _, [] => true
  | [], _ :: _ => false
  | x :: xs, y :: ys => x == y && startsWithChars xs ys

def inferKind (format : String) : String :=
  if containsChars format.data 'W' then "week"
  else if containsChars format.data 'Q' then "quarter"
  else if format = "YYYY" then "year"
  else if format = "YYYY-MM" then "month"
  else "day"

def normalizeByFormat (format : String) (m : CDate) : CDate :=
  if inferKind format = "week" then startOfIsoWeek m
  else if inferKind format = "month" then startOfMonth m
  else if inferKind format = "quarter" then startOfQuarter m
  else if inferKind format = "year" then startOfYear m
  else m

def getFileDataList (parse : String → String → Option CDate) :
    List String → String → Option (CDate × String)
  | [], _ => none
  | format :: rest, name =>
    match parse format name with
    | some m => some (normalizeByFormat format m, inferKind format)
    | none => getFileDataList parse rest name

def stripMdFirst : List Char → List Char
  | [] => []
  | '.' :: 'm' :: 'd' :: rest => rest
  | ch :: rest => ch :: stripMdFirst rest

def getFileData (parse : String → String → Option CDate) (dateFormats filename : String) :
    Option (CDate × String) :=
  getFileDataList parse (splitTrim dateFormats) (String.mk (stripMdFirst filename.data))

def getDailyNotes (parse : String → String → Option CDate)
    (watchedFolders dateFormats : String) (files : List (String × String)) :
    List (String × String) :=
  files.filter (fun file =>
    ((splitTrim watchedFolders).any (fun folder => startsWithChars file.1.data folder.data)) &&
    ((splitTrim dateFormats).any (fun format =>
      (parse format (stripMdEnd file.2)).isSome)))

def generateCalendar (date : CDate) : List (Option CDate) :=
  let fd := dayOfWeekSun ⟨date.y, date.m, 1⟩
  let firstDayIdx := if fd = 0 then 6 else fd - 1
  List.replicate firstDayIdx.toNat none ++
    (List.range (daysInMonth date.y date.m).toNat).map
      (fun i => some ⟨date.y, date.m, (i : Int) + 1⟩)

def probeParse (format name : String) : Option CDate :=
  if format = "FMT" && name = "x" then some ⟨2024, 1, 5⟩ else none

theorem daysInMonth_pos (y m : Int) : 1 ≤ daysInMonth y m := by
  unfold daysInMonth
  split_ifs <;> omega

theorem daysInMonth_le (y m : Int) : daysInMonth y m ≤ 31 := by
  unfold daysInMonth
  split_ifs <;> omega

theorem valid_mk (y m d : Int) :
    Valid ⟨y, m, d⟩ ↔ 1 ≤ m ∧ m ≤ 12 ∧ 1 ≤ d ∧ d ≤ daysInMonth y m := Iff.rfl

theorem toDays_unix_epoch : toDays ⟨1970, 1, 1⟩ = 0 := by decide

theorem toDays_jan_2024 : toDays ⟨2024, 1, 1⟩ = 19723 := by decide

theorem toDays_mar_2024 : toDays ⟨2024, 3, 1⟩ = 19783 := by decide

theorem toDays_mar_2000 : toDays ⟨2000, 3, 1⟩ = 11017 := by decide

theorem yearDays_decomp (a r : Int) (h0 : 0 ≤ r) (h1 : r < 400) :
    yearDays (400 * a + r) = 146097 * a + 365 * r + r / 4 - r / 100 := by
  unfold yearDays
  have he : (400 * a + r) / 400 = a := by
    rw [add_comm, Int.add_mul_ediv_left r a (by norm_num), Int.ediv_eq_zero_of_lt h0 h1]
    ring
  rw [he]
  ring_nf

theorem isLeap_iff (y : Int) :
    isLeap y = true ↔ ((4 : Int) ∣ y ∧ ¬ (100 : Int) ∣ y) ∨ (400 : Int) ∣ y := by
  unfold isLeap
  simp only [Bool.or_eq_true, Bool.and_eq_true, beq_iff_eq, bne_iff_ne, ne_eq,
    Int.emod_emod_of_dvd, Int.dvd_iff_emod_eq_zero]
  tauto

theorem yearDays_shift (y : Int) :
    yearDays y = yearDays (y - 1) + (if isLeap y then 366 else 365) := by
  obtain ⟨a, r, h0, h1, hy⟩ : ∃ a r : Int, 0 ≤ r ∧ r < 400 ∧ y = 400 * a + r :=
    ⟨y / 400, y % 400, Int.emod_nonneg y (by norm_num), Int.emod_lt_of_pos y (by norm_num),
      by have := Int.ediv_add_emod y 400; omega⟩
  subst hy
  have hleap : (isLeap (400 * a + r) = true) ↔ ((4 : Int) ∣ r ∧ ¬ (100 : Int) ∣ r) ∨ r = 0 := by
    rw [isLeap_iff]
    constructor
    · rintro (⟨h4, h100⟩ | h400)
      · left
        constructor
        · omega
        · intro hc; apply h100; omega
      · right; omega
    · rintro (⟨h4, h100⟩ | h400)
      · left
        constructor
        · omega
        · intro hc; apply h100; omega
      · right; omega
  by_cases hz : r = 0
  · subst hz
    have h2 : 400 * a + (0 : Int) - 1 = 400 * (a - 1) + 399 := by ring
    rw [h2, yearDays_decomp a 0 (by norm_num) (by norm_num),
      yearDays_decomp (a - 1) 399 (by norm_num) (by norm_num)]
    have hLp : isLeap (400 * a + (0 : Int)) = true := by rw [hleap]; right; rfl
    rw [if_pos hLp]
    norm_num
    omega
  · have h2 : 400 * a + r - 1 = 400 * a + (r - 1) := by ring
    rw [h2, yearDays_decomp a r h0 h1, yearDays_decomp a (r - 1) (by omega) (by omega)]
    by_cases hl : isLeap (400 * a + r) = true
    · rw [if_pos hl]
      rw [hleap] at hl
      rcases hl with ⟨h4, h100⟩ | h400
      · omega
      · omega
    · rw [if_neg hl]
      rw [hleap] at hl
      push_neg at hl
      omega

theorem toDays_prevDay (c : CDate) (h : Valid c) : toDays (prevDay c) = toDays c - 1 := by
  obtain ⟨hm1, hm2, hd1, hd2⟩ := h
  rcases c with ⟨y, m, d⟩
  simp only at hm1 hm2 hd1 hd2
  by_cases hd : 1 < d
  · simp only [prevDay, if_pos hd, toDays]
    omega
  · have hd1' : d = 1 := by omega
    subst hd1'
    simp only [prevDay, if_neg hd]
    by_cases hm : 1 < m
    · simp only [if_pos hm]
      have hsh := yearDays_shift y
      interval_cases m <;>
        simp only [toDays, daysInMonth, monthDoy] at * <;>
        norm_num at * <;>
        split_ifs at * <;> omega
    · have hm' : m = 1 := by omega
      subst hm'
      simp only [if_neg hm, toDays, monthDoy, daysInMonth]
      norm_num
      omega

theorem prevDay_valid (c : CDate) (h : Valid c) : Valid (prevDay c) := by
  obtain ⟨hm1, hm2, hd1, hd2⟩ := h
  rcases c with ⟨y, m, d⟩
  simp only at hm1 hm2 hd1 hd2
  simp only [prevDay]
  split_ifs with h1 h2
  · exact (valid_mk _ _ _).mpr ⟨hm1, hm2, by omega, by omega⟩
  · exact (valid_mk _ _ _).mpr ⟨by omega, by omega, daysInMonth_pos y (m - 1), le_refl _⟩
  · refine (valid_mk _ _ _).mpr ⟨by norm_num, by norm_num, by norm_num, ?_⟩
    simp only [daysInMonth]
    norm_num

theorem toDays_civilSubDays (c : CDate) (k : Nat) (h : Valid c) :
    toDays (civilSubDays c k) = toDays c - k ∧ Valid (civilSubDays c k) := by
  induction k generalizing c with
  | zero => simpa using ⟨rfl, h⟩
  | succ n ih =>
    have hp := prevDay_valid c h
    have hd := toDays_prevDay c h
    have := ih (prevDay c) hp
    unfold civilSubDays
    constructor
    · rw [this.1, hd]
      push_cast
      ring
    · exact this.2

theorem startOfIsoWeek_monday (c : CDate) (h : Valid c) :
    (toDays (startOfIsoWeek c) + 3) % 7 = 0 := by
  unfold startOfIsoWeek
  have hk : (0 : Int) ≤ (toDays c + 3) % 7 := Int.emod_nonneg _ (by norm_num)
  have := (toDays_civilSubDays c ((toDays c + 3) % 7).toNat h).1
  rw [this]
  omega

theorem nextDay_valid (c : CDate) (h : Valid c) : Valid (nextDay c) := by
  obtain ⟨hm1, hm2, hd1, hd2⟩ := h
  rcases c with ⟨y, m, d⟩
  simp only at hm1 hm2 hd1 hd2
  simp only [nextDay]
  split_ifs with h1 h2
  · exact (valid_mk _ _ _).mpr ⟨hm1, hm2, by omega, by omega⟩
  · exact (valid_mk _ _ _).mpr ⟨by omega, by omega, by norm_num, daysInMonth_pos y (m + 1)⟩
  · refine (valid_mk _ _ _).mpr ⟨by norm_num, by norm_num, by norm_num, ?_⟩
    simp only [daysInMonth]
    norm_num

theorem civilAddDays_valid (c : CDate) (k : Nat) (h : Valid c) : Valid (civilAddDays c k) := by
  induction k generalizing c with
  | zero => simpa using h
  | succ n ih =>
    unfold civilAddDays
    exact ih (nextDay c) (nextDay_valid c h)

theorem civilOfYearDay_valid (y n : Int) : Valid (civilOfYearDay y n) := by
  unfold civilOfYearDay
  apply civilAddDays_valid
  constructor
  · norm_num
  · refine ⟨by norm_num, by norm_num, ?_⟩
    unfold daysInMonth
    norm_num

theorem statsOfSorted_streak (t n : Int) (l : List CDate) :
    (statsOfSorted t n l).currentStreak = streakTop t (l.filter dayFilter) := by
  cases l with
  | nil => rfl
  | cons x xs => rfl

theorem insertD_perm (c : CDate) (l : List CDate) : (insertD c l).Perm (c :: l) := by
  induction l with
  | nil => rfl
  | cons x xs ih =>
    unfold insertD
    split
    · rfl
    · exact ((ih.cons x).trans (List.Perm.swap c x xs))

theorem sortDesc_perm (l : List CDate) : (sortDesc l).Perm l := by
  induction l with
  | nil => rfl
  | cons x xs ih =>
    unfold sortDesc
    exact (insertD_perm x (sortDesc xs)).trans (ih.cons x)

theorem mem_insertD (b c : CDate) (l : List CDate) :
    b ∈ insertD c l ↔ b = c ∨ b ∈ l := by
  rw [(insertD_perm c l).mem_iff]
  simp

theorem insertD_pairwise (c : CDate) (l : List CDate)
    (h : l.Pairwise (fun a b => toDays b ≤ toDays a)) :
    (insertD c l).Pairwise (fun a b => toDays b ≤ toDays a) := by
  induction l with
  | nil => simp [insertD]
  | cons x xs ih =>
    rw [List.pairwise_cons] at h
    obtain ⟨hx, hxs⟩ := h
    unfold insertD
    split
    · rename_i hle
      rw [List.pairwise_cons]
      constructor
      · intro b hb
        rcases List.mem_cons.mp hb with rfl | hb
        · exact hle
        · exact le_trans (hx b hb) hle
      · rw [List.pairwise_cons]
        exact ⟨hx, hxs⟩
    · rename_i hgt
      push_neg at hgt
      rw [List.pairwise_cons]
      constructor
      · intro b hb
        rcases (mem_insertD b c xs).mp hb with rfl | hb
        · exact le_of_lt hgt
        · exact hx b hb
      · exact ih hxs

theorem sortDesc_pairwise (l : List CDate) :
    (sortDesc l).Pairwise (fun a b => toDays b ≤ toDays a) := by
  induction l with
  | nil => simp [sortDesc]
  | cons x xs ih =>
    unfold sortDesc
    exact insertD_pairwise x (sortDesc xs) ih

theorem insertD_ne_nil (c : CDate) (l : List CDate) : insertD c l ≠ [] := by
  cases l with
  | nil => simp [insertD]
  | cons x xs =>
    unfold insertD
    split <;> simp

theorem filter_insertD_neg (p : CDate → Bool) (c : CDate) (l : List CDate)
    (hp : p c = false) : (insertD c l).filter p = l.filter p := by
  induction l with
  | nil => simp [insertD, hp]
  | cons x xs ih =>
    unfold insertD
    split
    · simp [List.filter, hp]
    · rw [List.filter_cons, List.filter_cons]
      cases hx : p x <;> simp [hx, ih]

theorem insertD_front (c : CDate) (l : List CDate)
    (h : ∀ a ∈ l, toDays a ≤ toDays c) : insertD c l = c :: l := by
  cases l with
  | nil => rfl
  | cons x xs =>
    unfold insertD
    rw [if_pos (h x (by simp))]

theorem insertD_nil (c : CDate) : insertD c [] = [c] := rfl

theorem insertD_cons (c x : CDate) (xs : List CDate) :
    insertD c (x :: xs) =
      if toDays x ≤ toDays c then c :: x :: xs else x :: insertD c xs := rfl

theorem filter_insertD_pos (p : CDate → Bool) (c : CDate) (l : List CDate)
    (hp : p c = true) (hs : l.Pairwise (fun a b => toDays b ≤ toDays a)) :
    (insertD c l).filter p = insertD c (l.filter p) := by
  induction l with
  | nil => simp [insertD, hp]
  | cons x xs ih =>
    rw [List.pairwise_cons] at hs
    obtain ⟨hx, hxs⟩ := hs
    rw [insertD_cons]
    by_cases hle : toDays x ≤ toDays c
    · rw [if_pos hle]
      rw [List.filter_cons, List.filter_cons, if_pos (by simp [hp])]
      cases hpx : p x
      · rw [if_neg (by simp [hpx])]
        rw [insertD_front c (xs.filter p)]
        intro a ha
        exact le_trans (hx a (List.mem_filter.mp ha).1) hle
      · rw [if_pos (by simp [hpx]), insertD_cons, if_pos hle]
    · rw [if_neg hle]
      rw [List.filter_cons, List.filter_cons]
      cases hpx : p x
      · rw [if_neg (by simp [hpx]), if_neg (by simp [hpx])]
        exact ih hxs
      · rw [if_pos (by simp [hpx]), if_pos (by simp [hpx]), insertD_cons,
          if_neg hle, ih hxs]

theorem walkStreak_insertD_dup (c : CDate) (t : List CDate) (chk : Int)
    (hs : t.Pairwise (fun a b => toDays b ≤ toDays a)) (hc : c ∈ t) :
    walkStreak (insertD c t) chk ≤ walkStreak t chk := by
  induction t generalizing chk with
  | nil => cases hc
  | cons x xs ih =>
    rw [List.pairwise_cons] at hs
    obtain ⟨hx, hxs⟩ := hs
    rw [insertD_cons]
    by_cases hle : toDays x ≤ toDays c
    · have hcx : toDays c ≤ toDays x := by
        rcases List.mem_cons.mp hc with rfl | hmem
        · exact le_refl _
        · exact hx c hmem
      have heq : toDays c = toDays x := le_antisymm hcx hle
      rw [if_pos hle]
      unfold walkStreak
      by_cases hck : toDays c = chk
      · rw [if_pos hck]
        rw [if_pos (heq ▸ hck)]
        have : walkStreak (x :: xs) (chk - 1) = 0 := by
          unfold walkStreak
          rw [if_neg (by omega)]
        rw [this]
        omega
      · rw [if_neg hck]
        omega
    · rw [if_neg hle]
      have hmem : c ∈ xs := by
        rcases List.mem_cons.mp hc with rfl | hmem
        · exact absurd (le_refl _) hle
        · exact hmem
      unfold walkStreak
      by_cases hxk : toDays x = chk
      · rw [if_pos hxk, if_pos hxk]
        have := ih (chk - 1) hxs hmem
        omega
      · rw [if_neg hxk, if_neg hxk]

theorem streakTop_cons (today : Int) (x : CDate) (xs : List CDate) :
    streakTop today (x :: xs) =
      if toDays x = today ∨ toDays x = today - 1 then 1 + walkStreak xs (toDays x - 1)
      else 0 := rfl

theorem streakTop_insertD_dup (today : Int) (c : CDate) (t : List CDate)
    (hs : t.Pairwise (fun a b => toDays b ≤ toDays a)) (hc : c ∈ t) :
    streakTop today (insertD c t) ≤ streakTop today t := by
  cases t with
  | nil => cases hc
  | cons x xs =>
    rw [List.pairwise_cons] at hs
    obtain ⟨hx, hxs⟩ := hs
    rw [insertD_cons]
    by_cases hle : toDays x ≤ toDays c
    · have hcx : toDays c ≤ toDays x := by
        rcases List.mem_cons.mp hc with rfl | hmem
        · exact le_refl _
        · exact hx c hmem
      have heq : toDays c = toDays x := le_antisymm hcx hle
      rw [if_pos hle]
      rw [streakTop_cons, streakTop_cons]
      by_cases hck : toDays c = today ∨ toDays c = today - 1
      · rw [if_pos hck, if_pos (heq ▸ hck)]
        have : walkStreak (x :: xs) (toDays c - 1) = 0 := by
          unfold walkStreak
          rw [if_neg (by omega)]
        rw [this]
        have h0 : 0 ≤ walkStreak xs (toDays x - 1) := Nat.zero_le _
        omega
      · rw [if_neg hck, if_neg (heq ▸ hck)]
    · rw [if_neg hle]
      have hmem : c ∈ xs := by
        rcases List.mem_cons.mp hc with rfl | hmem
        · exact absurd (le_refl _) hle
        · exact hmem
      rw [streakTop_cons, streakTop_cons]
      by_cases hxk : toDays x = today ∨ toDays x = today - 1
      · rw [if_pos hxk, if_pos hxk]
        have := walkStreak_insertD_dup c xs (toDays x - 1) hxs hmem
        omega
      · rw [if_neg hxk, if_neg hxk]

theorem sorted_perm_eq (l L : List CDate)
    (hs : l.Pairwise (fun a b => toDays b ≤ toDays a))
    (hstrict : L.Pairwise (fun a b => toDays b < toDays a))
    (hp : l.Perm L) : l = L := by
  induction L generalizing l with
  | nil => exact hp.eq_nil
  | cons d L' ih =>
    rcases l with _ | ⟨x, xs⟩
    · exact absurd hp.nil_eq (by simp)
    · rw [List.pairwise_cons] at hs hstrict
      obtain ⟨hx, hxs⟩ := hs
      obtain ⟨hd, hL'⟩ := hstrict
      have hxd : x = d := by
        by_contra hne
        have hdl : d ∈ x :: xs := hp.mem_iff.mpr (by simp)
        have hxl : x ∈ d :: L' := hp.mem_iff.mp (by simp)
        rcases List.mem_cons.mp hdl with rfl | hdmem
        · exact hne rfl
        · rcases List.mem_cons.mp hxl with rfl | hxmem
          · exact hne rfl
          · have h1 : toDays d ≤ toDays x := hx d hdmem
            have h2 : toDays x < toDays d := hd x hxmem
            omega
      subst hxd
      have htail : xs.Perm L' := hp.cons_inv
      rw [ih xs hxs hL' htail]

theorem dayFilter_false_of_first (c : CDate) (h : c.d = 1) : dayFilter c = false := by
  unfold dayFilter
  simp [h]

theorem dayFilter_false_of_monday (c : CDate) (h : (toDays c + 3) % 7 = 0) :
    dayFilter c = false := by
  unfold dayFilter dayOfWeekSun
  have h4 : (toDays c + 4) % 7 = 1 := by omega
  simp [h4]

theorem parseGGGGWW_valid (dow doy : Int) (s : List Char) (c : CDate)
    (h : parseGGGGWW dow doy s = some c) : Valid c := by
  unfold parseGGGGWW at h
  split at h
  · split at h
    · split at h
      · split at h
        · simp only [Option.some.injEq] at h
          subst h
          exact civilOfYearDay_valid _ _
        · exact absurd h (by simp)
      · exact absurd h (by simp)
    · exact absurd h (by simp)
  · exact absurd h (by simp)

theorem parseYYYYQ_shape (s : List Char) (c : CDate) (h : parseYYYYQ s = some c) :
    c.d = 1 ∧ (c.m = 1 ∨ c.m = 4 ∨ c.m = 7 ∨ c.m = 10) := by
  unfold parseYYYYQ at h
  split at h
  · split at h
    · split at h
      · rename_i hq
        simp only [Option.some.injEq] at h
        subst h
        refine ⟨rfl, ?_⟩
        simp only
        omega
      · exact absurd h (by simp)
    · exact absurd h (by simp)
  · exact absurd h (by simp)

theorem parseYYYYMM_shape (s : List Char) (c : CDate) (h : parseYYYYMM s = some c) :
    c.d = 1 := by
  unfold parseYYYYMM at h
  split at h
  · split at h
    · split at h
      · simp only [Option.some.injEq] at h
        subst h
        rfl
      · exact absurd h (by simp)
    · exact absurd h (by simp)
  · exact absurd h (by simp)

theorem parseYYYY_shape (s : List Char) (c : CDate) (h : parseYYYY s = some c) :
    c.m = 1 ∧ c.d = 1 := by
  unfold parseYYYY at h
  split at h
  · split at h
    · simp only [Option.some.injEq] at h
      subst h
      exact ⟨rfl, rfl⟩
    · exact absurd h (by simp)
  · exact absurd h (by simp)

theorem classify7_inv (dow doy : Int) (name : String) (c : CDate) (k : PKind)
    (h : classify7 dow doy name = some (c, k)) :
    k = PKind.day ∨
    (k = PKind.week ∧ ∃ c2, parseGGGGWW dow doy (stripMdEnd name).data = some c2 ∧
      c = startOfIsoWeek c2) ∨
    (k = PKind.month ∧ ∃ c2, parseYYYYMM (stripMdEnd name).data = some c2 ∧
      c = startOfMonth c2) ∨
    (k = PKind.quarter ∧ ∃ c2, parseYYYYQ (stripMdEnd name).data = some c2 ∧
      c = startOfQuarter c2) ∨
    (k = PKind.year ∧ ∃ c2, parseYYYY (stripMdEnd name).data = some c2 ∧
      c = startOfYear c2) := by
  simp only [classify7] at h
  split at h
  · simp only [Option.some.injEq, Prod.mk.injEq] at h
    exact Or.inl h.2.symm
  · split at h
    · simp only [Option.some.injEq, Prod.mk.injEq] at h
      exact Or.inl h.2.symm
    · split at h
      · simp only [Option.some.injEq, Prod.mk.injEq] at h
        exact Or.inl h.2.symm
      · split at h
        · simp only [Option.some.injEq, Prod.mk.injEq] at h
          rename_i c2 heq
          exact Or.inr (Or.inl ⟨h.2.symm, c2, heq, h.1.symm⟩)
        · split at h
          · simp only [Option.some.injEq, Prod.mk.injEq] at h
            rename_i c2 heq
            exact Or.inr (Or.inr (Or.inl ⟨h.2.symm, c2, heq, h.1.symm⟩))
          · split at h
            · simp only [Option.some.injEq, Prod.mk.injEq] at h
              rename_i c2 heq
              exact Or.inr (Or.inr (Or.inr (Or.inl ⟨h.2.symm, c2, heq, h.1.symm⟩)))
            · split at h
              · simp only [Option.some.injEq, Prod.mk.injEq] at h
                rename_i c2 heq
                exact Or.inr (Or.inr (Or.inr (Or.inr ⟨h.2.symm, c2, heq, h.1.symm⟩)))
              · exact absurd h (by simp)

theorem classify7_not_day_filter (dow doy : Int) (name : String) (c : CDate) (k : PKind)
    (h : classify7 dow doy name = some (c, k)) (hk : k ≠ PKind.day) :
    dayFilter c = false := by
  rcases classify7_inv dow doy name c k h with
    hday | ⟨_, c2, hp, rfl⟩ | ⟨_, c2, hp, rfl⟩ | ⟨_, c2, hp, rfl⟩ | ⟨_, c2, hp, rfl⟩
  · exact absurd hday hk
  · exact dayFilter_false_of_monday _ (startOfIsoWeek_monday c2 (parseGGGGWW_valid dow doy _ c2 hp))
  · exact dayFilter_false_of_first _ rfl
  · exact dayFilter_false_of_first _ rfl
  · exact dayFilter_false_of_first _ rfl

theorem filter_statsDates_eq (dow doy : Int) (notes : List String) :
    (notes.filterMap (statsParse dow doy)).filter dayFilter =
      (dayDates dow doy notes).filter dayFilter := by
  induction notes with
  | nil => rfl
  | cons n ns ih =>
    simp only [dayDates, List.filterMap_cons] at ih ⊢
    cases hc : classify7 dow doy n with
    | none =>
      simp only [statsParse, hc, Option.map_none']
      exact ih
    | some ck =>
      obtain ⟨c, k⟩ := ck
      simp only [statsParse, hc, Option.map_some']
      cases k with
      | day =>
        simp only [List.filter_cons]
        rw [ih]
      | week =>
        have hf := classify7_not_day_filter dow doy n c _ hc (by simp)
        simp only [List.filter_cons, hf]
        exact ih
      | month =>
        have hf := classify7_not_day_filter dow doy n c _ hc (by simp)
        simp only [List.filter_cons, hf]
        exact ih
      | quarter =>
        have hf := classify7_not_day_filter dow doy n c _ hc (by simp)
        simp only [List.filter_cons, hf]
        exact ih
      | year =>
        have hf := classify7_not_day_filter dow doy n c _ hc (by simp)
        simp only [List.filter_cons, hf]
        exact ih

theorem dayFilter_true_of (c : CDate) (hd : c.d ≠ 1) (hw : dayOfWeekSun c ≠ 1) :
    dayFilter c = true := by
  unfold dayFilter
  have h1 : (c.d == 1) = false := by simp [hd]
  have h2 : (dayOfWeekSun c == 1) = false := by simp [hw]
  simp [h1, h2]

theorem mem_dayDates (dow doy : Int) (notes : List String) (c : CDate) :
    c ∈ dayDates dow doy notes ↔
      ∃ n ∈ notes, classify7 dow doy n = some (c, PKind.day) := by
  unfold dayDates
  rw [List.mem_filterMap]
  constructor
  · rintro ⟨n, hn, hp⟩
    refine ⟨n, hn, ?_⟩
    cases hc : classify7 dow doy n with
    | none => rw [hc] at hp; exact absurd hp (by simp)
    | some ck =>
      obtain ⟨c2, k⟩ := ck
      rw [hc] at hp
      cases k with
      | day =>
        simp only [Option.some.injEq] at hp
        rw [hp]
      | week => exact absurd hp (by simp)
      | month => exact absurd hp (by simp)
      | quarter => exact absurd hp (by simp)
      | year => exact absurd hp (by simp)
  · rintro ⟨n, hn, hc⟩
    exact ⟨n, hn, by rw [hc]⟩

theorem mondayIdx_eq (c : CDate) :
    (if dayOfWeekSun c = 0 then 6 else dayOfWeekSun c - 1) = (toDays c + 3) % 7 := by
  unfold dayOfWeekSun
  omega

theorem toDays_day (y m d : Int) :
    toDays ⟨y, m, d⟩ = toDays ⟨y, m, 1⟩ + (d - 1) := by
  simp only [toDays]
  omega

theorem walkStreak_nil (chk : Int) : walkStreak [] chk = 0 := rfl

theorem walkStreak_cons (x : CDate) (xs : List CDate) (chk : Int) :
    walkStreak (x :: xs) chk = if toDays x = chk then 1 + walkStreak xs (chk - 1) else 0 := rfl

/-- C4: an input with zero day-classified notes yields `currentStreak = 0`,
regardless of how many week-, month-, quarter- or year-classified notes it has. -/
theorem C4_no_day_notes_zero_streak (dow doy today nowMin : Int) (notes : List String)
    (h : dayDates dow doy notes = []) :
    (calculateStatistics dow doy notes today nowMin).currentStreak = 0 := by
  cases notes with
  | nil => rfl
  | cons n ns =>
    unfold calculateStatistics
    rw [if_neg (by simp), statsOfSorted_streak]
    have hperm := (sortDesc_perm ((n :: ns).filterMap (statsParse dow doy))).filter dayFilter
    rw [filter_statsDates_eq, h] at hperm
    simp only [List.filter_nil] at hperm
    rw [hperm.eq_nil]
    rfl

/-- C8: when the input is empty or no note name parses under any of the formats,
`calculateStatistics` returns the defined empty result: empty `lastNoteDate`,
streak 0 and the fixed no-notes message; it does not fail. -/
theorem C8_empty_input_defaults (dow doy today nowMin : Int) (notes : List String)
    (h : notes.filterMap (statsParse dow doy) = []) :
    calculateStatistics dow doy notes today nowMin =
      ⟨"", 0, "Нет записей"⟩ := by
  cases notes with
  | nil => rfl
  | cons n ns =>
    unfold calculateStatistics
    rw [if_neg (by simp), h]
    rfl

/-- C3: if there is at least one day-classified note and every day-classified
date lies strictly more than one day before today, `calculateStatistics` returns
`currentStreak = 0`. -/
theorem C3_stale_day_notes_zero_streak (dow doy today nowMin : Int) (notes : List String)
    (hne : dayDates dow doy notes ≠ [])
    (hold : ∀ c ∈ dayDates dow doy notes, toDays c < today - 1) :
    (calculateStatistics dow doy notes today nowMin).currentStreak = 0 := by
  have hnotes : notes ≠ [] := by
    intro h
    rw [h] at hne
    exact hne rfl
  obtain ⟨n, ns, rfl⟩ := List.exists_cons_of_ne_nil hnotes
  unfold calculateStatistics
  rw [if_neg (by simp), statsOfSorted_streak]
  cases htc : (sortDesc ((n :: ns).filterMap (statsParse dow doy))).filter dayFilter with
  | nil => rfl
  | cons x xs =>
    have hxmem : x ∈ (dayDates dow doy (n :: ns)).filter dayFilter := by
      have hperm := (sortDesc_perm ((n :: ns).filterMap (statsParse dow doy))).filter dayFilter
      rw [filter_statsDates_eq] at hperm
      exact hperm.mem_iff.mp (by rw [htc]; simp)
    have hxday : x ∈ dayDates dow doy (n :: ns) := (List.mem_filter.mp hxmem).1
    have hlt := hold x hxday
    rw [streakTop_cons, if_neg (by omega)]

/-- C7 (amended): `currentStreak` is unaffected by week-, month-, quarter- and
year-classified notes: prepending such a note leaves it unchanged.
(`lastNoteDate` and `timeSinceLastNote` are not so protected, see the C7
counterexample.) -/
theorem C7_streak_ignores_periodic (dow doy today nowMin : Int) (notes : List String)
    (n2 : String) (c : CDate) (k : PKind)
    (hc : classify7 dow doy n2 = some (c, k)) (hk : k ≠ PKind.day) :
    (calculateStatistics dow doy (n2 :: notes) today nowMin).currentStreak =
      (calculateStatistics dow doy notes today nowMin).currentStreak := by
  have hsp : statsParse dow doy n2 = some c := by simp [statsParse, hc]
  have hpf : dayFilter c = false := classify7_not_day_filter dow doy n2 c k hc hk
  cases notes with
  | nil =>
    unfold calculateStatistics
    rw [if_neg (by simp), statsOfSorted_streak, List.filterMap_cons_some hsp,
      List.filterMap_nil]
    rw [show sortDesc [c] = insertD c (sortDesc []) from rfl,
      filter_insertD_neg dayFilter c _ hpf]
    rfl
  | cons m ms =>
    unfold calculateStatistics
    rw [if_neg (by simp), if_neg (by simp), statsOfSorted_streak, statsOfSorted_streak,
      List.filterMap_cons_some hsp]
    rw [show sortDesc (c :: (m :: ms).filterMap (statsParse dow doy)) =
        insertD c (sortDesc ((m :: ms).filterMap (statsParse dow doy))) from rfl,
      filter_insertD_neg dayFilter c _ hpf]

/-- C2 (amended): adding one more note whose name parses to a calendar day already
present among the parsed dates never increases `currentStreak` (it can strictly
decrease it, because the backward walk stops at the duplicate entry). -/
theorem C2_duplicate_never_increases (dow doy today nowMin : Int) (notes : List String)
    (n2 : String) (c : CDate)
    (h1 : statsParse dow doy n2 = some c)
    (h2 : c ∈ notes.filterMap (statsParse dow doy)) :
    (calculateStatistics dow doy (n2 :: notes) today nowMin).currentStreak ≤
      (calculateStatistics dow doy notes today nowMin).currentStreak := by
  have hnotes : notes ≠ [] := by
    intro h
    rw [h] at h2
    exact absurd h2 (by simp)
  obtain ⟨n, ns, rfl⟩ := List.exists_cons_of_ne_nil hnotes
  unfold calculateStatistics
  rw [if_neg (by simp), if_neg (by simp), statsOfSorted_streak, statsOfSorted_streak,
    List.filterMap_cons_some h1]
  rw [show sortDesc (c :: (n :: ns).filterMap (statsParse dow doy)) =
      insertD c (sortDesc ((n :: ns).filterMap (statsParse dow doy))) from rfl]
  cases hpc : dayFilter c with
  | false =>
    rw [filter_insertD_neg dayFilter c _ hpc]
  | true =>
    rw [filter_insertD_pos dayFilter c _ hpc (sortDesc_pairwise _)]
    have hcs : c ∈ sortDesc ((n :: ns).filterMap (statsParse dow doy)) :=
      (sortDesc_perm _).mem_iff.mpr h2
    have hcf : c ∈ (sortDesc ((n :: ns).filterMap (statsParse dow doy))).filter dayFilter :=
      List.mem_filter.mpr ⟨hcs, hpc⟩
    exact streakTop_insertD_dup today c _ ((sortDesc_pairwise _).filter dayFilter) hcf

/-- C1 (amended): if the day-classified notes of the input have dates exactly today,
yesterday and the day before, and additionally none of those three days is the first
day of a month or a Monday (the code excludes such dates from the streak by its
period-start heuristic), then `calculateStatistics` returns `currentStreak = 3`. -/
theorem C1_streak_three (dow doy today nowMin : Int) (notes : List String)
    (c1 c2 c3 : CDate)
    (hperm : (dayDates dow doy notes).Perm [c1, c2, c3])
    (ht1 : toDays c1 = today) (ht2 : toDays c2 = today - 1) (ht3 : toDays c3 = today - 2)
    (hd1 : c1.d ≠ 1) (hw1 : dayOfWeekSun c1 ≠ 1)
    (hd2 : c2.d ≠ 1) (hw2 : dayOfWeekSun c2 ≠ 1)
    (hd3 : c3.d ≠ 1) (hw3 : dayOfWeekSun c3 ≠ 1) :
    (calculateStatistics dow doy notes today nowMin).currentStreak = 3 := by
  have hf1 := dayFilter_true_of c1 hd1 hw1
  have hf2 := dayFilter_true_of c2 hd2 hw2
  have hf3 := dayFilter_true_of c3 hd3 hw3
  have hnotes : notes ≠ [] := by
    intro h
    subst h
    have := hperm.length_eq
    simp [dayDates] at this
  obtain ⟨n, ns, rfl⟩ := List.exists_cons_of_ne_nil hnotes
  unfold calculateStatistics
  rw [if_neg (by simp), statsOfSorted_streak]
  have heq : (sortDesc ((n :: ns).filterMap (statsParse dow doy))).filter dayFilter =
      [c1, c2, c3] := by
    apply sorted_perm_eq
    · exact (sortDesc_pairwise _).filter dayFilter
    · refine List.Pairwise.cons ?_ (List.Pairwise.cons ?_ (List.pairwise_singleton _ _))
      · intro b hb
        rcases List.mem_cons.mp hb with rfl | hb
        · omega
        · rcases List.mem_cons.mp hb with rfl | hb
          · omega
          · exact absurd hb (by simp)
      · intro b hb
        rcases List.mem_cons.mp hb with rfl | hb
        · omega
        · exact absurd hb (by simp)
    · have hp1 := (sortDesc_perm ((n :: ns).filterMap (statsParse dow doy))).filter dayFilter
      rw [filter_statsDates_eq] at hp1
      have hp2 := hperm.filter dayFilter
      have hfl : ([c1, c2, c3] : List CDate).filter dayFilter = [c1, c2, c3] := by
        simp [List.filter_cons, hf1, hf2, hf3]
      rw [hfl] at hp2
      exact hp1.trans hp2
  rw [heq, streakTop_cons, if_pos (Or.inl ht1), walkStreak_cons, if_pos (by omega),
    walkStreak_cons, if_pos (by omega), walkStreak_nil]

/-- C5: for every parse behaviour, ordered format list and note name, the name is
classified by the first format that parses it: formats before it that fail are
skipped, the result is the first match normalized with its inferred kind, and the
formats after the first match are never consulted (the result does not depend on
them). -/
theorem C5_first_match_classifies (parse : String → String → Option CDate)
    (A B : List String) (f name : String) (c : CDate)
    (hA : ∀ g ∈ A, parse g name = none) (hf : parse f name = some c) :
    getFileDataList parse (A ++ f :: B) name =
      some (normalizeByFormat f c, inferKind f) ∧
    ∀ B2 : List String, getFileDataList parse (A ++ f :: B2) name =
      getFileDataList parse (A ++ f :: B) name := by
  induction A with
  | nil =>
    constructor
    · simp only [List.nil_append, getFileDataList, hf]
    · intro B2
      simp only [List.nil_append, getFileDataList, hf]
  | cons g A2 ih =>
    have hg : parse g name = none := hA g (by simp)
    have hA2 : ∀ g2 ∈ A2, parse g2 name = none := fun g2 h2 => hA g2 (by simp [h2])
    obtain ⟨ih1, ih2⟩ := ih hA2
    constructor
    · simp only [List.cons_append, getFileDataList, hg]
      exact ih1
    · intro B2
      simp only [List.cons_append, getFileDataList, hg]
      exact ih2 B2

/-- C6: a note classified as week, month, quarter or year kind gets the canonical
start date of its period: a Monday (start of an ISO week) for weeks, the first day
of the month for months, the first day of a quarter (month 1, 4, 7 or 10) for
quarters, and January 1st for years. -/
theorem C6_periodic_canonical_start (dow doy : Int) (name : String) (c : CDate) (k : PKind)
    (h : classify7 dow doy name = some (c, k)) :
    (k = PKind.week → (toDays c + 3) % 7 = 0) ∧
    (k = PKind.month → c.d = 1) ∧
    (k = PKind.quarter → c.d = 1 ∧ (c.m = 1 ∨ c.m = 4 ∨ c.m = 7 ∨ c.m = 10)) ∧
    (k = PKind.year → c.m = 1 ∧ c.d = 1) := by
  rcases classify7_inv dow doy name c k h with
    hday | ⟨hk, c2, hp, rfl⟩ | ⟨hk, c2, hp, rfl⟩ | ⟨hk, c2, hp, rfl⟩ | ⟨hk, c2, hp, rfl⟩
  · subst hday
    exact ⟨(by intro hx; cases hx), (by intro hx; cases hx), (by intro hx; cases hx),
      (by intro hx; cases hx)⟩
  · subst hk
    refine ⟨fun _ => ?_, (by intro hx; cases hx), (by intro hx; cases hx),
      (by intro hx; cases hx)⟩
    exact startOfIsoWeek_monday c2 (parseGGGGWW_valid dow doy _ c2 hp)
  · subst hk
    exact ⟨(by intro hx; cases hx), fun _ => rfl, (by intro hx; cases hx),
      (by intro hx; cases hx)⟩
  · subst hk
    refine ⟨(by intro hx; cases hx), (by intro hx; cases hx), fun _ => ⟨rfl, ?_⟩,
      (by intro hx; cases hx)⟩
    obtain ⟨hq1, hq2⟩ := parseYYYYQ_shape _ c2 hp
    show 3 * ((c2.m - 1) / 3) + 1 = 1 ∨ 3 * ((c2.m - 1) / 3) + 1 = 4 ∨
      3 * ((c2.m - 1) / 3) + 1 = 7 ∨ 3 * ((c2.m - 1) / 3) + 1 = 10
    rcases hq2 with hm | hm | hm | hm <;> rw [hm] <;> norm_num
  · subst hk
    exact ⟨(by intro hx; cases hx), (by intro hx; cases hx), (by intro hx; cases hx),
      fun _ => ⟨rfl, rfl⟩⟩

/-- C9: for every parse behaviour and every (possibly malformed) format list,
`getDailyNotes` returns normally a subset of the input in which every kept file
matches some format, and the classifier returns `none` (rather than failing) for
a name no format parses. -/
theorem C9_unmatched_notes_excluded (parse : String → String → Option CDate)
    (wf df : String) (files : List (String × String)) :
    (∀ file ∈ getDailyNotes parse wf df files, file ∈ files ∧
      ∃ fmt ∈ splitTrim df, (parse fmt (stripMdEnd file.2)).isSome = true) ∧
    (∀ fs : List String, ∀ name : String,
      (∀ f2 ∈ fs, parse f2 name = none) → getFileDataList parse fs name = none) := by
  constructor
  · intro file hfile
    unfold getDailyNotes at hfile
    have h := List.mem_filter.mp hfile
    refine ⟨h.1, ?_⟩
    have h2 := h.2
    simp only [Bool.and_eq_true] at h2
    have h3 := h2.2
    rw [List.any_eq_true] at h3
    obtain ⟨fmt, hfmt, hsome⟩ := h3
    exact ⟨fmt, hfmt, hsome⟩
  · intro fs name hnone
    induction fs with
    | nil => rfl
    | cons f2 rest ih =>
      have h := hnone f2 (by simp)
      simp only [getFileDataList, h]
      exact ih (fun g hg => hnone g (by simp [hg]))

/-- C10: `generateCalendar` returns exactly k leading null cells, where k is the
Monday-based weekday index of the first day of the month, followed by one cell per
day 1..last in ascending order, and the index of each day cell is congruent modulo
7 to the Monday-based weekday of that day. -/
theorem C10_calendar_layout (y m d : Int) (_hm1 : 1 ≤ m) (_hm2 : m ≤ 12) :
    (generateCalendar ⟨y, m, d⟩).length =
      ((toDays ⟨y, m, 1⟩ + 3) % 7).toNat + (daysInMonth y m).toNat ∧
    (∀ i : Nat, i < ((toDays ⟨y, m, 1⟩ + 3) % 7).toNat →
      (generateCalendar ⟨y, m, d⟩)[i]? = some none) ∧
    (∀ j : Nat, j < (daysInMonth y m).toNat →
      (generateCalendar ⟨y, m, d⟩)[((toDays ⟨y, m, 1⟩ + 3) % 7).toNat + j]? =
        some (some ⟨y, m, (j : Int) + 1⟩) ∧
      ((((toDays ⟨y, m, 1⟩ + 3) % 7).toNat + j : Nat) : Int) % 7 =
        (toDays ⟨y, m, (j : Int) + 1⟩ + 3) % 7) := by
  have hidx : (if dayOfWeekSun ⟨y, m, 1⟩ = 0 then 6 else dayOfWeekSun ⟨y, m, 1⟩ - 1) =
      (toDays ⟨y, m, 1⟩ + 3) % 7 := mondayIdx_eq ⟨y, m, 1⟩
  have hmod : (0 : Int) ≤ (toDays ⟨y, m, 1⟩ + 3) % 7 := Int.emod_nonneg _ (by norm_num)
  have hmod7 : (toDays ⟨y, m, 1⟩ + 3) % 7 < 7 := Int.emod_lt_of_pos _ (by norm_num)
  unfold generateCalendar
  simp only
  rw [hidx]
  refine ⟨?_, ?_, ?_⟩
  · rw [List.length_append, List.length_replicate, List.length_map, List.length_range]
  · intro i hi
    rw [List.getElem?_append, if_pos (by simpa using hi), List.getElem?_replicate, if_pos hi]
  · intro j hj
    constructor
    · rw [List.getElem?_append_right (by simp), List.length_replicate]
      rw [Nat.add_sub_cancel_left, List.getElem?_map, List.getElem?_range hj]
      rfl
    · have htn : ((((toDays ⟨y, m, 1⟩ + 3) % 7).toNat : Int)) = (toDays ⟨y, m, 1⟩ + 3) % 7 :=
        Int.toNat_of_nonneg hmod
      have hday := toDays_day y m ((j : Int) + 1)
      push_cast
      omega

/-- C1 counterexample: for today = Wednesday 2024-01-17 the three day notes
2024-01-17, 2024-01-16, 2024-01-15 are exactly today, today minus 1 and today
minus 2, yet the streak is 2, not 3: Monday 2024-01-15 is dropped by the
period-start heuristic of the code. -/
theorem C1_counterexample :
    dayDates 1 4 ["2024-01-17", "2024-01-16", "2024-01-15"] =
      [⟨2024, 1, 17⟩, ⟨2024, 1, 16⟩, ⟨2024, 1, 15⟩] ∧
    toDays ⟨2024, 1, 16⟩ = toDays ⟨2024, 1, 17⟩ - 1 ∧
    toDays ⟨2024, 1, 15⟩ = toDays ⟨2024, 1, 17⟩ - 2 ∧
    (calculateStatistics 1 4 ["2024-01-17", "2024-01-16", "2024-01-15"]
      (toDays ⟨2024, 1, 17⟩) (toDays ⟨2024, 1, 17⟩ * 1440)).currentStreak = 2 := by
  refine ⟨by decide, by decide, by decide, by decide⟩

/-- C1 witness: concrete instance of the amended claim (Wed to Fri, 2024-03-13 to
2024-03-15). -/
theorem C1_witness :
    (calculateStatistics 1 4 ["2024-03-15", "2024-03-14", "2024-03-13"]
      (toDays ⟨2024, 3, 15⟩) (toDays ⟨2024, 3, 15⟩ * 1440)).currentStreak = 3 :=
  C1_streak_three 1 4 (toDays ⟨2024, 3, 15⟩) (toDays ⟨2024, 3, 15⟩ * 1440)
    ["2024-03-15", "2024-03-14", "2024-03-13"]
    ⟨2024, 3, 15⟩ ⟨2024, 3, 14⟩ ⟨2024, 3, 13⟩
    (by decide) (by decide) (by decide) (by decide) (by decide) (by decide)
    (by decide) (by decide) (by decide) (by decide)

/-- C2 counterexample: with day notes 2024-03-15 and 2024-03-14 and today =
2024-03-15 the streak is 2; adding "15.03.24", which parses to the already present
day 2024-03-15, changes the streak to 1. -/
theorem C2_counterexample :
    statsParse 1 4 "15.03.24" = some ⟨2024, 3, 15⟩ ∧
    (⟨2024, 3, 15⟩ : CDate) ∈
      ["2024-03-15", "2024-03-14"].filterMap (statsParse 1 4) ∧
    (calculateStatistics 1 4 ["2024-03-15", "2024-03-14"]
      (toDays ⟨2024, 3, 15⟩) (toDays ⟨2024, 3, 15⟩ * 1440)).currentStreak = 2 ∧
    (calculateStatistics 1 4 ["15.03.24", "2024-03-15", "2024-03-14"]
      (toDays ⟨2024, 3, 15⟩) (toDays ⟨2024, 3, 15⟩ * 1440)).currentStreak = 1 := by
  refine ⟨by decide, by decide, by decide, by decide⟩

/-- C2 witness: concrete instance of the amended claim. -/
theorem C2_witness :
    (calculateStatistics 1 4 ["15.03.24", "2024-03-15", "2024-03-14"]
      (toDays ⟨2024, 3, 15⟩) (toDays ⟨2024, 3, 15⟩ * 1440)).currentStreak ≤
    (calculateStatistics 1 4 ["2024-03-15", "2024-03-14"]
      (toDays ⟨2024, 3, 15⟩) (toDays ⟨2024, 3, 15⟩ * 1440)).currentStreak :=
  C2_duplicate_never_increases 1 4 (toDays ⟨2024, 3, 15⟩) (toDays ⟨2024, 3, 15⟩ * 1440)
    ["2024-03-15", "2024-03-14"] "15.03.24" ⟨2024, 3, 15⟩ (by decide) (by decide)

/-- C3 witness: a single day note five days before today yields streak 0. -/
theorem C3_witness :
    (calculateStatistics 1 4 ["2024-03-10"]
      (toDays ⟨2024, 3, 15⟩) (toDays ⟨2024, 3, 15⟩ * 1440)).currentStreak = 0 :=
  C3_stale_day_notes_zero_streak 1 4 (toDays ⟨2024, 3, 15⟩) (toDays ⟨2024, 3, 15⟩ * 1440)
    ["2024-03-10"] (by decide) (by decide)

set_option maxRecDepth 100000 in
/-- C4 witness: week, month, quarter and year notes only still yield streak 0. -/
theorem C4_witness :
    (calculateStatistics 1 4 ["2024-W05", "2024-04", "2024-Q3", "2024"]
      (toDays ⟨2024, 3, 15⟩) (toDays ⟨2024, 3, 15⟩ * 1440)).currentStreak = 0 :=
  C4_no_day_notes_zero_streak 1 4 (toDays ⟨2024, 3, 15⟩) (toDays ⟨2024, 3, 15⟩ * 1440)
    ["2024-W05", "2024-04", "2024-Q3", "2024"] (by decide)

/-- C5 witness: a concrete parse function, a failing format followed by a matching
one, and irrelevance of the trailing formats. -/
theorem C5_witness :
    probeParse "BAD" "x" = none ∧
    probeParse "FMT" "x" = some ⟨2024, 1, 5⟩ ∧
    getFileDataList probeParse (["BAD"] ++ "FMT" :: ["Z1", "Z2"]) "x" =
      getFileDataList probeParse (["BAD"] ++ "FMT" :: []) "x" :=
  ⟨rfl, rfl,
    (C5_first_match_classifies probeParse ["BAD"] [] "FMT" "x" ⟨2024, 1, 5⟩
      (by decide) (by decide)).2 ["Z1", "Z2"]⟩

set_option maxRecDepth 100000 in
/-- C6 witness: "2024-W05" classifies to 2024-01-29, a Monday. -/
theorem C6_witness :
    (toDays (⟨2024, 1, 29⟩ : CDate) + 3) % 7 = 0 :=
  (C6_periodic_canonical_start 1 4 "2024-W05" ⟨2024, 1, 29⟩ PKind.week (by decide)).1 rfl

/-- C7 counterexample: a month note "2024-04" is classified to 2024-04-01 and,
being the most recent date, changes both `lastNoteDate` and `timeSinceLastNote`,
so those two fields are not derived from day-kind notes only. -/
theorem C7_counterexample :
    classify7 1 4 "2024-04" = some (⟨2024, 4, 1⟩, PKind.month) ∧
    (calculateStatistics 1 4 ["2024-04", "2024-03-15"]
      (toDays ⟨2024, 3, 15⟩) (toDays ⟨2024, 3, 15⟩ * 1440 + 600)).lastNoteDate =
      "01 Apr 2024" ∧
    (calculateStatistics 1 4 ["2024-03-15"]
      (toDays ⟨2024, 3, 15⟩) (toDays ⟨2024, 3, 15⟩ * 1440 + 600)).lastNoteDate =
      "15 Mar 2024" ∧
    (calculateStatistics 1 4 ["2024-04", "2024-03-15"]
        (toDays ⟨2024, 3, 15⟩) (toDays ⟨2024, 3, 15⟩ * 1440 + 600)).timeSinceLastNote ≠
      (calculateStatistics 1 4 ["2024-03-15"]
        (toDays ⟨2024, 3, 15⟩) (toDays ⟨2024, 3, 15⟩ * 1440 + 600)).timeSinceLastNote := by
  refine ⟨by decide, by decide, by decide, by decide⟩

/-- C7 witness: concrete instance of the amended claim. -/
theorem C7_witness :
    (calculateStatistics 1 4 ["2024-04", "2024-03-15", "2024-03-14"]
      (toDays ⟨2024, 3, 15⟩) (toDays ⟨2024, 3, 15⟩ * 1440)).currentStreak =
    (calculateStatistics 1 4 ["2024-03-15", "2024-03-14"]
      (toDays ⟨2024, 3, 15⟩) (toDays ⟨2024, 3, 15⟩ * 1440)).currentStreak :=
  C7_streak_ignores_periodic 1 4 (toDays ⟨2024, 3, 15⟩) (toDays ⟨2024, 3, 15⟩ * 1440)
    ["2024-03-15", "2024-03-14"] "2024-04" ⟨2024, 4, 1⟩ PKind.month (by decide) (by decide)

/-- C8 witness: one unparseable name yields the empty statistics record. -/
theorem C8_witness :
    calculateStatistics 1 4 ["hello"] 0 0 = ⟨"", 0, "Нет записей"⟩ :=
  C8_empty_input_defaults 1 4 0 0 ["hello"] (by decide)

/-- C9 witness: malformed format strings simply classify nothing. -/
theorem C9_witness :
    getFileDataList probeParse ["[malformed", "YYYY-%%-DD"] "2024-01-05" = none :=
  (C9_unmatched_notes_excluded probeParse "" "" []).2 ["[malformed", "YYYY-%%-DD"]
    "2024-01-05" (by decide)

/-- C10 witness: March 2024 (the 1st is a Friday, k = 4). -/
theorem C10_witness :
    (generateCalendar ⟨2024, 3, 15⟩).length =
      ((toDays ⟨2024, 3, 1⟩ + 3) % 7).toNat + (daysInMonth 2024 3).toNat ∧
    (generateCalendar ⟨2024, 3, 15⟩)[2]? = some none ∧
    (generateCalendar ⟨2024, 3, 15⟩)[((toDays ⟨2024, 3, 1⟩ + 3) % 7).toNat + 5]? =
      some (some ⟨2024, 3, (5 : Int) + 1⟩) := by
  have h := C10_calendar_layout 2024 3 15 (by norm_num) (by norm_num)
  exact ⟨h.1, h.2.1 2 (by decide), (h.2.2 5 (by decide)).1⟩
